import Mathlib

/-!
Verification development for the moltblock repository.

Each section shallowly embeds one TypeScript module of the repository and
proves the claimed properties about it:

* `src/memory.ts`           — `WorkingMemory` and its mutators.
* `src/signing.ts`          — HMAC artifact signing / verification.
* `composite-verifier`      — `CompositeVerifier.verify`.
* `src/policy-verifier.ts`  — `PolicyVerifier.verify`.
* `src/persistence.ts`      — strategy version chain, governance KV store.
* `src/governance.ts`       — `canMolt` / `triggerMolt`.
* `src/handoff.ts`          — `receiveArtifacts`.
* `graph-schema`            — `AgentGraph.topologicalOrder`, final-node resolution.
* `graph-runner`            — graph execution (the `continueOnError` variant is
  modelled from the specification, see its doc comment).

External collaborators (the SQLite engine, `node:crypto`, the JS `RegExp`
engine, the LLM gateway) are modelled as explicit parameters, exactly at the
interface the repository consumes.
-/

namespace Moltblock

/-! ### Working memory (`src/memory.ts`) -/

/-- In-memory scratchpad for a single run (`class WorkingMemory`).
`meta` holds only the `nodeErrors` annotation used by the graph runner;
other `meta` keys never interact with the claims. -/
structure WorkingMemory where
  task : String := ""
  draft : String := ""
  critique : String := ""
  finalCandidate : String := ""
  verificationPassed : Bool := false
  verificationEvidence : String := ""
  authoritativeArtifact : String := ""
  /-- `meta.nodeErrors`: nodeId → error message, in insertion order. -/
  nodeErrors : List (String × String) := []
  /-- `slots`: nodeId → output, in insertion order. -/
  slots : List (String × String) := []
  longTermContext : String := ""
  deriving Repr, DecidableEq

/-- A fresh `new WorkingMemory()`. -/
def WorkingMemory.init : WorkingMemory := {}

def WorkingMemory.setTask (m : WorkingMemory) (task : String) : WorkingMemory :=
  { m with task := task }

def WorkingMemory.setDraft (m : WorkingMemory) (draft : String) : WorkingMemory :=
  { m with draft := draft }

def WorkingMemory.setCritique (m : WorkingMemory) (critique : String) : WorkingMemory :=
  { m with critique := critique }

def WorkingMemory.setFinalCandidate (m : WorkingMemory) (candidate : String) : WorkingMemory :=
  { m with finalCandidate := candidate }

/-- `setVerification(passed, evidence)`: records the result and, only when
`passed` is true, copies `finalCandidate` into `authoritativeArtifact`. -/
def WorkingMemory.setVerification (m : WorkingMemory) (passed : Bool) (evidence : String) :
    WorkingMemory :=
  let m' := { m with verificationPassed := passed, verificationEvidence := evidence }
  if passed then { m' with authoritativeArtifact := m.finalCandidate } else m'

/-- `setSlot(nodeId, content)`: upsert into the slot map. -/
def WorkingMemory.setSlot (m : WorkingMemory) (nodeId content : String) : WorkingMemory :=
  { m with slots := (nodeId, content) :: m.slots.filter (fun kv => kv.1 ≠ nodeId) }

/-- `getSlot(nodeId)`: lookup with `?? ""` default. -/
def WorkingMemory.getSlot (m : WorkingMemory) (nodeId : String) : String :=
  ((m.slots.find? (fun kv => kv.1 == nodeId)).map (·.2)).getD ""

/-- One public mutation of a `WorkingMemory` (the methods of `memory.ts`). -/
inductive MemOp where
  | setTask (task : String)
  | setDraft (draft : String)
  | setCritique (critique : String)
  | setFinalCandidate (candidate : String)
  | setVerification (passed : Bool) (evidence : String)
  | setSlot (nodeId content : String)
  deriving Repr, DecidableEq

def applyMemOp (m : WorkingMemory) : MemOp → WorkingMemory
  | .setTask t => m.setTask t
  | .setDraft d => m.setDraft d
  | .setCritique c => m.setCritique c
  | .setFinalCandidate c => m.setFinalCandidate c
  | .setVerification p e => m.setVerification p e
  | .setSlot n c => m.setSlot n c

def applyMemOps (m : WorkingMemory) (ops : List MemOp) : WorkingMemory :=
  ops.foldl applyMemOp m

/-! ### Artifact signing (`src/signing.ts`)

`node:crypto` is external: the HKDF key derivation (`getSecret`) is modelled
by an abstract `derive : String → String` (entityId → per-entity key) and
HMAC-SHA256 by an abstract `hmac : String → String → String` (key, payload →
digest).  The digest is kept abstract instead of its base64 rendering: the
base64 encoding of a fixed-length digest is injective and `timingSafeEqual`
on the decoded bytes (with the length-mismatch throw caught to `false`)
decides exactly equality of digests. -/

/-- `signArtifact(entityId, payload)`: HMAC of the payload under the
entity-derived key. -/
def signArtifact (derive : String → String) (hmac : String → String → String)
    (entityId payload : String) : String :=
  hmac (derive entityId) payload

/-- `verifyArtifact(entityId, payload, signatureB64)`: recompute the expected
signature and compare in constant time. -/
def verifyArtifact (derive : String → String) (hmac : String → String → String)
    (entityId payload signature : String) : Bool :=
  signArtifact derive hmac entityId payload == signature

/-! ### Verification results and `CompositeVerifier` (verifier-interface, composite-verifier) -/

/-- `VerificationResult`: `details` is populated only by composite verifiers. -/
inductive VerificationResult where
  | mk (passed : Bool) (evidence : String) (verifierName : String)
      (details : List VerificationResult)
  deriving Repr

def VerificationResult.passed : VerificationResult → Bool
  | .mk p _ _ _ => p

def VerificationResult.evidence : VerificationResult → String
  | .mk _ e _ _ => e

def VerificationResult.verifierName : VerificationResult → String
  | .mk _ _ n _ => n

def VerificationResult.details : VerificationResult → List VerificationResult
  | .mk _ _ _ d => d

/-- The loop body of `CompositeVerifier.verify`, over the child results in
order: push each consulted result, flip `allPassed` on a failure, and in
fail-fast mode stop right after the first failure.  Returns the consulted
`details` list and the final `allPassed` flag. -/
def compositeConsult (failFast : Bool) : List VerificationResult →
    List VerificationResult × Bool
  | [] => ([], true)
  | r :: rs =>
    if r.passed then
      let rest := compositeConsult failFast rs
      (r :: rest.1, rest.2)
    else if failFast then ([r], false)
    else
      let rest := compositeConsult failFast rs
      (r :: rest.1, false)

/-- `[name] PASS|FAIL: evidence` line for one consulted child. -/
def childLine (r : VerificationResult) : String :=
  "[" ++ r.verifierName ++ "] " ++ (if r.passed then "PASS" else "FAIL") ++ ": " ++ r.evidence

/-- `CompositeVerifier.verify`, applied to the (deterministic) results the
child verifiers produce on the given memory/context, in order. -/
def compositeVerify (failFast : Bool) (childResults : List VerificationResult) :
    VerificationResult :=
  let consulted := compositeConsult failFast childResults
  .mk consulted.2 (String.intercalate "\n" (consulted.1.map childLine))
    "CompositeVerifier" consulted.1

/-! ### Policy verifier (`src/policy-verifier.ts`)

The JS `RegExp` engine is external: each pre-compiled rule carries an
abstract `test : String → Bool` standing for `regex.test`. -/

inductive RuleTarget where
  | artifact
  | task
  | both
  deriving Repr, DecidableEq

inductive RuleAction where
  | deny
  | allow
  deriving Repr, DecidableEq

/-- `PolicyRule` (the `pattern` field is the regex source text; its compiled
form lives in `CompiledRule.test`). -/
structure PolicyRule where
  id : String
  description : String
  target : RuleTarget
  pattern : String
  action : RuleAction
  category : String
  enabled : Bool
  deriving Repr, DecidableEq

/-- A rule with its regex compiled once at construction. -/
structure CompiledRule where
  rule : PolicyRule
  /-- Abstract model of `regex.test` for the compiled `pattern`. -/
  test : String → Bool

/-- `getTargetText(target, artifact, task)`: `"both"` concatenates with the
task first, separated by a newline. -/
def getTargetText : RuleTarget → String → String → String
  | .artifact, artifact, _ => artifact
  | .task, _, task => task
  | .both, artifact, task => task ++ "\n" ++ artifact

/-- First pass of `verify`: the categories of every enabled allow rule whose
pattern matches that rule's own target text. -/
def allowedCategories (rules : List CompiledRule) (artifact task : String) : List String :=
  (rules.filter (fun c =>
    c.rule.enabled && c.rule.action == .allow &&
      c.test (getTargetText c.rule.target artifact task))).map (·.rule.category)

/-- Second pass of `verify`: the `[ruleId] description` line of every enabled
deny rule whose category was not allow-listed and whose pattern matches its
target text. -/
def policyViolations (rules : List CompiledRule) (artifact task : String) : List String :=
  let allowed := allowedCategories rules artifact task
  (rules.filter (fun c =>
    c.rule.enabled && c.rule.action == .deny &&
      !(allowed.contains c.rule.category) &&
      c.test (getTargetText c.rule.target artifact task))).map
    (fun c => "[" ++ c.rule.id ++ "] " ++ c.rule.description)

/-- `PolicyVerifier.verify` for a verifier whose compiled rule list is
`rules`; `artifact` is `memory.finalCandidate` and `task` the resolved task
text (`context.task ?? memory.task ?? ""`). -/
def policyVerify (rules : List CompiledRule) (artifact task : String) : VerificationResult :=
  let violations := policyViolations rules artifact task
  if violations.length > 0 then
    .mk false ("Policy violations:\n" ++ String.intercalate "\n" violations) "PolicyVerifier" []
  else
    .mk true "All policy rules passed." "PolicyVerifier" []

/-! ### Durable store (`src/persistence.ts`)

The SQLite engine is external; the tables a single entity owns are modelled
as in-memory lists in insertion order.  All queries the claims touch are
scoped to one `entityId`, so the entity column is dropped. -/

/-- One row of the `strategies` table (for the fixed entity). -/
structure StrategyRow where
  role : String
  version : Nat
  content : String
  deriving Repr, DecidableEq

/-- One row of the `checkpoints` table. -/
structure CheckpointRow where
  entity_version : String
  graph_hash : String
  memory_hash : String
  artifact_refs : List String
  deriving Repr, DecidableEq

/-- One row of the `audit_log` table. -/
structure AuditRow where
  event_type : String
  detail : String
  deriving Repr, DecidableEq

/-- The durable tables one entity owns (the ones the claims touch). -/
structure Store where
  /-- `governance_state`: key → value, upsert by key. -/
  governance : List (String × String) := []
  checkpoints : List CheckpointRow := []
  audits : List AuditRow := []
  strategies : List StrategyRow := []
  deriving Repr, DecidableEq

/-- A freshly created store (empty tables). -/
def Store.empty : Store := {}

/-- `getGovernanceValue`: single-row lookup by key (`row?.value ?? null`). -/
def getGovernanceValue (s : Store) (key : String) : Option String :=
  (s.governance.find? (fun kv => kv.1 == key)).map (·.2)

/-- `setGovernanceValue`: `INSERT OR REPLACE` keyed by `(entity_id, key)`. -/
def setGovernanceValue (s : Store) (key value : String) : Store :=
  { s with governance := (key, value) :: s.governance.filter (fun kv => kv.1 ≠ key) }

/-- `auditLog`: append-only insert. -/
def auditLog (s : Store) (eventType detail : String) : Store :=
  { s with audits := s.audits ++ [⟨eventType, detail⟩] }

/-- `Store.writeCheckpoint`: append-only insert. -/
def writeCheckpoint (s : Store) (entityVersion graphHash memoryHash : String)
    (artifactRefs : List String) : Store :=
  { s with checkpoints := s.checkpoints ++ [⟨entityVersion, graphHash, memoryHash, artifactRefs⟩] }

/-- `SELECT COALESCE(MAX(version), 0) FROM strategies WHERE role = ?`. -/
def maxStrategyVersion (s : Store) (role : String) : Nat :=
  ((s.strategies.filter (fun r => r.role == role)).map (·.version)).foldl max 0

/-- `setStrategy(store, role, content)`: read max version, insert max+1. -/
def setStrategy (s : Store) (role content : String) : Store :=
  { s with strategies := s.strategies ++ [⟨role, maxStrategyVersion s role + 1, content⟩] }

/-- The versions recorded for a role, in insertion order. -/
def versionsFor (s : Store) (role : String) : List Nat :=
  (s.strategies.filter (fun r => r.role == role)).map (·.version)

/-- A sequence of `setStrategy(role, content)` calls against one store. -/
def applySetStrategies (s : Store) (ops : List (String × String)) : Store :=
  ops.foldl (fun st op => setStrategy st op.1 op.2) s

/-! ### Governance (`src/governance.ts`)

`Date.now()/1000` is passed in as `now : Int` (seconds); `parseFloat` is the
abstract `parseNum : String → Option Int` (`none` for NaN, in which case the
rate-limit comparison is false, exactly as `NaN < x` in JS). -/

structure GovernanceConfig where
  moltRateLimitSec : Int
  allowedMoltTriggers : List String
  humanVetoPaused : Bool
  deriving Repr, DecidableEq

/-- `canMolt(store, config)`: `(allowed, reason)`.  The stored `last_molt_at`
participates only when truthy (non-empty). -/
def canMolt (parseNum : String → Option Int) (s : Store) (config : GovernanceConfig)
    (now : Int) : Bool × String :=
  if config.humanVetoPaused && getGovernanceValue s "paused" == some "1" then
    (false, "Entity is paused (human veto)")
  else
    match getGovernanceValue s "last_molt_at" with
    | some last =>
      if last ≠ "" then
        match parseNum last with
        | some t =>
          if now - t < config.moltRateLimitSec then
            (false, "Molt rate limit: wait " ++ toString config.moltRateLimitSec ++
              "s between molts")
          else (true, "")
        | none => (true, "")
      else (true, "")
    | none => (true, "")

/-- `triggerMolt`: re-check `canMolt`; on denial return the reason with the
store untouched; on success write the checkpoint, update `last_molt_at` and
`entity_version`, and append the "molt" audit event. -/
def triggerMolt (parseNum : String → Option Int) (s : Store) (entityVersion : String)
    (config : GovernanceConfig) (graphHash memoryHash : String)
    (artifactRefs : List String) (now : Int) : (Bool × String) × Store :=
  let gate := canMolt parseNum s config now
  if !gate.1 then ((false, gate.2), s)
  else
    let s1 := writeCheckpoint s entityVersion (if graphHash = "" then "molt" else graphHash)
      memoryHash artifactRefs
    let s2 := setGovernanceValue s1 "last_molt_at" (toString now)
    let s3 := setGovernanceValue s2 "entity_version" entityVersion
    let s4 := auditLog s3 "molt" ("version=" ++ entityVersion ++ " graph_hash=" ++ graphHash)
    ((true, "Molt completed"), s4)

/-! ### Handoff (`src/handoff.ts`) -/

/-- One row of the `inbox` table as `getInbox` returns it. -/
structure InboxEntry where
  from_entity_id : String
  artifact_ref : String
  payload_text : String
  payload_hash : String
  signature : String
  deriving Repr, DecidableEq

/-- One element of the `receiveArtifacts` result. -/
structure ReceivedArtifact where
  from_entity_id : String
  artifact_ref : String
  payload_text : String
  verified : Bool
  deriving Repr, DecidableEq

/-- The per-entry body of `receiveArtifacts`: `ok` starts `true` and the
signature is recomputed only when `verify` is set and both `payload_text`
and `signature` are truthy (non-empty). -/
def receiveOne (verifyFn : String → String → String → Bool) (verify : Bool)
    (e : InboxEntry) : ReceivedArtifact :=
  let ok :=
    if verify && e.payload_text != "" && e.signature != "" then
      verifyFn e.from_entity_id e.payload_text e.signature
    else true
  ⟨e.from_entity_id, e.artifact_ref, e.payload_text, ok⟩

/-- `receiveArtifacts(store, {limit, verify})` applied to the inbox rows
`getInbox` fetched; `verifyFn` is `verifyArtifact` with the ambient keys. -/
def receiveArtifacts (verifyFn : String → String → String → Bool) (verify : Bool)
    (entries : List InboxEntry) : List ReceivedArtifact :=
  entries.map (receiveOne verifyFn verify)

/-! ### Agent graph (`graph-schema`) -/

structure GraphNode where
  id : String
  role : String
  binding : String
  deriving Repr, DecidableEq

/-- An edge; the source file's fields are `from`/`to` (`from` is a Lean
keyword, hence `efrom`/`eto`). -/
structure GraphEdge where
  efrom : String
  eto : String
  deriving Repr, DecidableEq

structure AgentGraph where
  nodes : List GraphNode
  edges : List GraphEdge
  /-- `final_node ?? null`. -/
  finalNode : Option String
  deriving Repr, DecidableEq

/-- Helper for `setDedup`: `seen` is the set built so far (a `Set.add` is a
no-op on an element already present). -/
def setDedupGo (seen : List String) : List String → List String
  | [] => []
  | x :: xs => if seen.contains x then setDedupGo seen xs else x :: setDedupGo (x :: seen) xs

/-- `new Set(xs)` in iteration order: keep the first occurrence of each
element. -/
def setDedup (l : List String) : List String :=
  setDedupGo [] l

/-- `new Set(this.nodes.map(n => n.id))`, in iteration order. -/
def nodeIdsOf (g : AgentGraph) : List String :=
  setDedup (g.nodes.map (·.id))

/-- `predecessors(nodeId)`. -/
def predecessors (g : AgentGraph) (nodeId : String) : List String :=
  (g.edges.filter (fun e => e.eto == nodeId)).map (·.efrom)

/-- `successors(nodeId)`. -/
def successors (g : AgentGraph) (nodeId : String) : List String :=
  (g.edges.filter (fun e => e.efrom == nodeId)).map (·.eto)

/-- The initial in-degree map: `0` for every node id, then `+1` per edge
whose target is a node id (the edge's source is not checked). -/
def initInDegree (g : AgentGraph) (nid : String) : Int :=
  if nid ∈ nodeIdsOf g then ((g.edges.filter (fun e => e.eto == nid)).length : Int) else 0

/-- `for (const s of successors(nid)) if (inDegree[s] !== undefined) inDegree[s]--`:
the map's keys are exactly the node ids. -/
def decSuccessors (nodeIds : List String) (succs : List String)
    (inDeg : String → Int) : String → Int :=
  succs.foldl
    (fun d s => if s ∈ nodeIds then (fun x => if x = s then d x - 1 else d x) else d) inDeg

/-- The decrements performed for one emitted batch. -/
def decBatch (g : AgentGraph) (nodeIds ready : List String)
    (inDeg : String → Int) : String → Int :=
  ready.foldl (fun d nid => decSuccessors nodeIds (successors g nid) d) inDeg

/-- The `while (order.length < nodeIds.size)` sweep of `topologicalOrder`.
Each pass either emits a non-empty `ready` batch or stops (`break; // cycle
or done`), so `nodeIds.length` passes always suffice: the fuel argument makes
the recursion structural without changing the returned list. -/
def topoLoop (g : AgentGraph) (nodeIds : List String) :
    Nat → (String → Int) → List String → List String
  | 0, _, order => order
  | fuel + 1, inDeg, order =>
    if order.length < nodeIds.length then
      let ready := nodeIds.filter (fun nid => !(order.contains nid) && inDeg nid == 0)
      if ready.isEmpty then order
      else topoLoop g nodeIds fuel (decBatch g nodeIds ready inDeg) (order ++ ready)
    else order

/-- `AgentGraph.topologicalOrder()`. -/
def topologicalOrder (g : AgentGraph) : List String :=
  topoLoop g (nodeIdsOf g) (nodeIdsOf g).length (initInDegree g) []

/-- `Array.prototype.indexOf`: first index, `-1` when absent. -/
def jsIndexOf (l : List String) (x : String) : Int :=
  if x ∈ l then (l.indexOf x : Int) else -1

/-- `getFinalNodeId()`: a truthy explicit `finalNode` wins; otherwise the
unique node with no outgoing edges, else `null`. -/
def getFinalNodeId (g : AgentGraph) : Option String :=
  match g.finalNode with
  | some f =>
    if f ≠ "" then some f
    else
      let candidates := (g.nodes.filter (fun n => (successors g n.id).isEmpty)).map (·.id)
      if candidates.length = 1 then candidates.head? else none
  | none =>
    let candidates := (g.nodes.filter (fun n => (successors g n.id).isEmpty)).map (·.id)
    if candidates.length = 1 then candidates.head? else none

/-- The direct-edge relation on node labels. -/
def edgeRel (g : AgentGraph) (a b : String) : Prop :=
  ∃ e ∈ g.edges, e.efrom = a ∧ e.eto = b

/-- No directed cycle through any label. -/
def Acyclic (g : AgentGraph) : Prop :=
  ∀ a, ¬ Relation.TransGen (edgeRel g) a a

/-! ### Graph runner with `continueOnError`

Modelled from the spec: the repository's tests
(`tests/graph-runner.test.ts`) exercise `GraphRunner.run(task,
{continueOnError})`, but the `graph-runner.ts` revision in the source dump
predates that option (its `run` accepts only
`testCode/store/entityVersion/writeCheckpointAfter`).  The behaviour below
follows §4.5 of the spec: nodes run in topological order, a `verifier`-role
node is skipped, a failing node propagates by default, and under
`continueOnError` the error is recorded under `meta.nodeErrors[nodeId]`, the
node's slot is set to the empty string, and execution continues; the final
candidate is the resolved final node's slot, then verification runs and its
result is applied to the memory.

The per-node role invocation (gateway + role function) is the abstract
`invoke : GraphNode → List (String × String) → Except String String`, taking
the predecessor inputs; the configured verifier is the abstract
`verifier : WorkingMemory → Bool × String`. -/
def runGraphNode (invoke : GraphNode → List (String × String) → Except String String)
    (continueOnError : Bool) (g : AgentGraph) (m : WorkingMemory) (nodeId : String) :
    Except String WorkingMemory :=
  match g.nodes.find? (fun n => n.id == nodeId) with
  | none => .ok m
  | some node =>
    if node.role == "verifier" then .ok m
    else
      let inputs := (predecessors g nodeId).map (fun p => (p, m.getSlot p))
      match invoke node inputs with
      | .ok out => .ok (m.setSlot nodeId out)
      | .error msg =>
        if continueOnError then
          .ok { m.setSlot nodeId "" with nodeErrors := (m.setSlot nodeId "").nodeErrors ++ [(nodeId, msg)] }
        else .error msg

/-- Modelled from the spec: the node-execution sweep of `GraphRunner.run`. -/
def runGraphNodes (invoke : GraphNode → List (String × String) → Except String String)
    (continueOnError : Bool) (g : AgentGraph) : List String → WorkingMemory →
    Except String WorkingMemory
  | [], m => .ok m
  | nodeId :: rest, m =>
    match runGraphNode invoke continueOnError g m nodeId with
    | .ok m' => runGraphNodes invoke continueOnError g rest m'
    | .error msg => .error msg

/-- Modelled from the spec: `GraphRunner.run(task, {continueOnError})`
end-to-end (long-term-context injection and store persistence, which the
claim does not touch, are omitted). -/
def graphRunnerRun (invoke : GraphNode → List (String × String) → Except String String)
    (verifier : WorkingMemory → Bool × String) (g : AgentGraph) (task : String)
    (continueOnError : Bool) : Except String WorkingMemory := do
  let m0 := WorkingMemory.init.setTask task
  let m1 ← runGraphNodes invoke continueOnError g (topologicalOrder g) m0
  let m2 :=
    match getFinalNodeId g with
    | some fid => m1.setFinalCandidate (m1.getSlot fid)
    | none => m1
  let v := verifier m2
  pure (m2.setVerification v.1 v.2)

/-! ### Concrete fixtures used by the scenario parts of the claims -/

/-- A two-node graph whose edge relation is the 2-cycle `a → b → a`. -/
def cycleGraph : AgentGraph :=
  ⟨[⟨"a", "generator", "g"⟩, ⟨"b", "critic", "c"⟩], [⟨"a", "b"⟩, ⟨"b", "a"⟩], none⟩

/-- The three-node generator/critic/judge graph of the runner tests. -/
def pipelineGraph : AgentGraph :=
  ⟨[⟨"generator", "generator", "generator"⟩, ⟨"critic", "critic", "critic"⟩,
    ⟨"judge", "judge", "judge"⟩],
   [⟨"generator", "critic"⟩, ⟨"generator", "judge"⟩, ⟨"critic", "judge"⟩], none⟩

/-- The two-node chain `a → b`. -/
def chainGraph : AgentGraph :=
  ⟨[⟨"a", "generator", "g"⟩, ⟨"b", "critic", "c"⟩], [⟨"a", "b"⟩], none⟩

/-- An enabled deny rule whose compiled regex matches every text. -/
def denyAllRule : CompiledRule :=
  ⟨⟨"r1", "desc", .artifact, "p", .deny, "cat", true⟩, fun _ => true⟩

/-- An enabled allow rule, same category as `denyAllRule`, matching every text. -/
def allowAllRule : CompiledRule :=
  ⟨⟨"r2", "desc2", .artifact, "q", .allow, "cat", true⟩, fun _ => true⟩

/-- A role invocation whose gateway is unreachable on every node. -/
def failInvoke : GraphNode → List (String × String) → Except String String :=
  fun _ _ => .error "connect ECONNREFUSED 127.0.0.1:1"

/-- A pluggable verifier that always fails. -/
def failVerifier : WorkingMemory → Bool × String :=
  fun _ => (false, "auto-fail")

/-! ### Proof-side auxiliaries for the topological-order claims -/

/-- The quantity the sweep's in-degree map tracks: how many edges into `nid`
still have an unemitted source. -/
def pendingCount (g : AgentGraph) (order : List String) (nid : String) : Int :=
  ((g.edges.filter (fun e => e.eto == nid && !(order.contains e.efrom))).length : Int)

/-- Every edge from a node id into an emitted node has its source emitted
strictly earlier. -/
def OrderOK (g : AgentGraph) (nodeIds order : List String) : Prop :=
  ∀ e ∈ g.edges, e.efrom ∈ nodeIds → e.eto ∈ order →
    e.efrom ∈ order ∧ order.indexOf e.efrom < order.indexOf e.eto

/-! ## Theorems -/

/-! ### C1 — verification gates authority (`WorkingMemory.setVerification`) -/

/-- Claim C1, counterexample: after `setFinalCandidate "x"`,
`setVerification true`, `setVerification false`, the most recent
`setVerification` call had `passed = false`, yet `authoritativeArtifact` is
still the non-empty `"x"` — `setVerification(false, ...)` does not clear a
previously set authoritative artifact. -/
theorem setVerification_false_retains_artifact :
    (applyMemOps .init
      [.setFinalCandidate "x", .setVerification true "", .setVerification false ""]).verificationPassed
        = false ∧
    (applyMemOps .init
      [.setFinalCandidate "x", .setVerification true "", .setVerification false ""]).authoritativeArtifact
        = "x" ∧
    (applyMemOps .init
      [.setFinalCandidate "x", .setVerification true "", .setVerification false ""]).authoritativeArtifact
        ≠ "" := by
  refine ⟨rfl, rfl, ?_⟩
  decide

/-- Claim C1 (amended): `authoritativeArtifact` is written only by a
`setVerification` call with `passed = true`, which copies the current
`finalCandidate`; every other operation — including
`setVerification(false, ...)` — leaves it unchanged (in particular a failing
verification never sets it, but also does not clear an earlier one). -/
theorem authoritative_artifact_only_on_pass (m : WorkingMemory) (e : String) (op : MemOp)
    (h : ∀ ev, op ≠ .setVerification true ev) :
    (applyMemOp m op).authoritativeArtifact = m.authoritativeArtifact ∧
    (applyMemOp m (.setVerification true e)).authoritativeArtifact = m.finalCandidate := by
  refine ⟨?_, rfl⟩
  cases op with
  | setTask t => rfl
  | setDraft d => rfl
  | setCritique c => rfl
  | setFinalCandidate c => rfl
  | setSlot n c => rfl
  | setVerification p ev =>
    cases p with
    | false => rfl
    | true => exact absurd rfl (h ev)

/-- Claim C1 witness: the amended statement at a concrete memory and a
concrete non-verification operation. -/
theorem authoritative_artifact_only_on_pass_witness :
    (applyMemOp ⟨"t", "d", "c", "fc", false, "", "auth", [], [], ""⟩
        (.setDraft "d2")).authoritativeArtifact = "auth" ∧
    (applyMemOp ⟨"t", "d", "c", "fc", false, "", "auth", [], [], ""⟩
        (.setVerification true "ev")).authoritativeArtifact = "fc" :=
  authoritative_artifact_only_on_pass ⟨"t", "d", "c", "fc", false, "", "auth", [], [], ""⟩
    "ev" (.setDraft "d2") (fun ev h => by cases h)

/-! ### C2 — cycle handling of `AgentGraph.topologicalOrder` -/

/-- Claim C2, evaluation at the failing input: on the 2-cycle graph
`topologicalOrder` returns the empty list — 0 of the 2 nodes — instead of
failing with a `CyclicGraph` error; the sweep's `break` silently truncates
the order. -/
theorem topologicalOrder_silently_truncates_on_cycle :
    topologicalOrder cycleGraph = [] ∧ (nodeIdsOf cycleGraph).length = 2 :=
  ⟨rfl, rfl⟩

/-! ### C7 — signature round-trip (`src/signing.ts`) -/

/-- Claim C7: signing then verifying with the same entity id and payload
succeeds, and verifying a mutated entity id or payload against the original
signature fails whenever the recomputed HMAC digest differs from the original
one (the collision-freedom hypothesis makes the standard cryptographic
assumption on HMAC-SHA256 explicit; `verifyArtifact` returns `true` exactly
when the digests coincide). -/
theorem signature_roundtrip (derive : String → String) (hmac : String → String → String)
    (e p e' p' : String) (hdiff : hmac (derive e') p' ≠ hmac (derive e) p) :
    verifyArtifact derive hmac e p (signArtifact derive hmac e p) = true ∧
    verifyArtifact derive hmac e' p' (signArtifact derive hmac e p) = false := by
  constructor
  · simp [verifyArtifact, signArtifact]
  · simp only [verifyArtifact, signArtifact, beq_eq_false_iff_ne, ne_eq]
    exact hdiff

/-- Claim C7 witness: a concrete key schedule and HMAC on which mutating the
entity id and payload changes the digest. -/
theorem signature_roundtrip_witness :
    verifyArtifact id (fun k x => k ++ "#" ++ x) "a" "x"
      (signArtifact id (fun k x => k ++ "#" ++ x) "a" "x") = true ∧
    verifyArtifact id (fun k x => k ++ "#" ++ x) "b" "y"
      (signArtifact id (fun k x => k ++ "#" ++ x) "a" "x") = false :=
  signature_roundtrip id (fun k x => k ++ "#" ++ x) "a" "x" "b" "y" (by decide)

/-! ### C10 — unsigned inbox rows are reported verified (`src/handoff.ts`) -/

/-- Claim C10: with `verify = true`, an inbox row whose stored payload text
or signature is empty is returned with `verified = true`, and the result does
not depend on the signature-verification function at all; the signature check
runs only when both fields are non-empty, and `receiveArtifacts` is the
row-wise map of this per-entry body. -/
theorem empty_payload_or_signature_verified (vf vf' : String → String → String → Bool)
    (e : InboxEntry) (entries : List InboxEntry)
    (h : e.payload_text = "" ∨ e.signature = "") :
    (receiveOne vf true e).verified = true ∧
    receiveOne vf true e = receiveOne vf' true e ∧
    (∀ e2 : InboxEntry, e2.payload_text ≠ "" → e2.signature ≠ "" →
      (receiveOne vf true e2).verified = vf e2.from_entity_id e2.payload_text e2.signature) ∧
    receiveArtifacts vf true entries = entries.map (receiveOne vf true) := by
  refine ⟨?_, ?_, ?_, rfl⟩
  · rcases h with h | h <;> simp [receiveOne, h]
  · rcases h with h | h <;> simp [receiveOne, h]
  · intro e2 h1 h2
    simp [receiveOne, h1, h2]

/-- Claim C10 witness: a concrete unsigned row under two different
verification functions. -/
theorem empty_payload_or_signature_verified_witness :
    (receiveOne (fun _ _ _ => false) true ⟨"alice", "ref1", "hello", "h", ""⟩).verified = true ∧
    receiveOne (fun _ _ _ => false) true ⟨"alice", "ref1", "hello", "h", ""⟩ =
      receiveOne (fun _ _ _ => true) true ⟨"alice", "ref1", "hello", "h", ""⟩ ∧
    (∀ e2 : InboxEntry, e2.payload_text ≠ "" → e2.signature ≠ "" →
      (receiveOne (fun _ _ _ => false) true e2).verified =
        (fun _ _ _ => false) e2.from_entity_id e2.payload_text e2.signature) ∧
    receiveArtifacts (fun _ _ _ => false) true [⟨"alice", "ref1", "hello", "h", ""⟩] =
      [⟨"alice", "ref1", "hello", "h", ""⟩].map (receiveOne (fun _ _ _ => false) true) :=
  empty_payload_or_signature_verified (fun _ _ _ => false) (fun _ _ _ => true)
    ⟨"alice", "ref1", "hello", "h", ""⟩ [⟨"alice", "ref1", "hello", "h", ""⟩] (Or.inr rfl)

/-! ### C5 — `CompositeVerifier` fail-fast vs collect-all -/

theorem compositeConsult_collect (rs : List VerificationResult) :
    compositeConsult false rs = (rs, rs.all (·.passed)) := by
  induction rs with
  | nil => rfl
  | cons r rest ih =>
    by_cases hr : r.passed = true
    · simp [compositeConsult, hr, ih]
    · simp only [Bool.not_eq_true] at hr
      simp [compositeConsult, hr, ih]

theorem compositeConsult_failfast (rs : List VerificationResult) :
    compositeConsult true rs =
      (rs.takeWhile (·.passed) ++ (rs.dropWhile (·.passed)).take 1, rs.all (·.passed)) := by
  induction rs with
  | nil => rfl
  | cons r rest ih =>
    by_cases hr : r.passed = true
    · simp [compositeConsult, List.takeWhile_cons, List.dropWhile_cons, hr, ih]
    · simp only [Bool.not_eq_true] at hr
      simp [compositeConsult, List.takeWhile_cons, List.dropWhile_cons, hr]

theorem compositeConsult_details_all (ff : Bool) (rs : List VerificationResult) :
    (compositeConsult ff rs).1.all (·.passed) = (compositeConsult ff rs).2 := by
  induction rs with
  | nil => rfl
  | cons r rest ih =>
    by_cases hr : r.passed = true
    · simp [compositeConsult, hr, ih]
    · simp only [Bool.not_eq_true] at hr
      cases ff <;> simp [compositeConsult, hr]

/-- Claim C5: in fail-fast mode the consulted `details` are the passing
prefix plus the first failing child; in collect-all mode they are all
children; the composite `passed` is the AND of the consulted children's
`passed`; the evidence is the newline-join of the consulted children's
`[name] PASS|FAIL: evidence` lines; and on `[fail, pass]` fail-fast consults
exactly the failing child while collect-all consults both. -/
theorem composite_failfast_vs_collectall (rs : List VerificationResult) (hne : rs ≠ [])
    (f p : VerificationResult) (hf : f.passed = false) (hp : p.passed = true) :
    (compositeVerify true rs).details =
      rs.takeWhile (·.passed) ++ (rs.dropWhile (·.passed)).take 1 ∧
    (compositeVerify false rs).details = rs ∧
    (∀ ff : Bool, (compositeVerify ff rs).passed = (compositeVerify ff rs).details.all (·.passed)) ∧
    (∀ ff : Bool, (compositeVerify ff rs).evidence =
      String.intercalate "\n" ((compositeVerify ff rs).details.map childLine)) ∧
    (compositeVerify true [f, p]).details = [f] ∧
    (compositeVerify false [f, p]).details = [f, p] := by
  refine ⟨?_, ?_, ?_, ?_, ?_, ?_⟩
  · simp [compositeVerify, VerificationResult.details, compositeConsult_failfast]
  · simp [compositeVerify, VerificationResult.details, compositeConsult_collect]
  · intro ff
    show (compositeConsult ff rs).2 = ((compositeConsult ff rs).1).all (·.passed)
    exact (compositeConsult_details_all ff rs).symm
  · intro ff
    simp [compositeVerify, VerificationResult.details, VerificationResult.evidence]
  · simp [compositeVerify, VerificationResult.details, compositeConsult, hf, hp]
  · simp [compositeVerify, VerificationResult.details, compositeConsult, hf, hp]

/-- Claim C5 witness: the always-fail and always-pass child results of the
repository's composite tests. -/
theorem composite_failfast_vs_collectall_witness :
    (compositeVerify true [.mk false "auto-fail" "AlwaysFail" [], .mk true "auto-pass" "AlwaysPass" []]).details =
      ([.mk false "auto-fail" "AlwaysFail" [], .mk true "auto-pass" "AlwaysPass" []] :
        List VerificationResult).takeWhile (·.passed) ++
      (([.mk false "auto-fail" "AlwaysFail" [], .mk true "auto-pass" "AlwaysPass" []] :
        List VerificationResult).dropWhile (·.passed)).take 1 ∧
    (compositeVerify false [.mk false "auto-fail" "AlwaysFail" [], .mk true "auto-pass" "AlwaysPass" []]).details =
      [.mk false "auto-fail" "AlwaysFail" [], .mk true "auto-pass" "AlwaysPass" []] ∧
    (∀ ff : Bool,
      (compositeVerify ff [.mk false "auto-fail" "AlwaysFail" [], .mk true "auto-pass" "AlwaysPass" []]).passed =
      (compositeVerify ff [.mk false "auto-fail" "AlwaysFail" [], .mk true "auto-pass" "AlwaysPass" []]).details.all (·.passed)) ∧
    (∀ ff : Bool,
      (compositeVerify ff [.mk false "auto-fail" "AlwaysFail" [], .mk true "auto-pass" "AlwaysPass" []]).evidence =
      String.intercalate "\n"
        ((compositeVerify ff [.mk false "auto-fail" "AlwaysFail" [], .mk true "auto-pass" "AlwaysPass" []]).details.map childLine)) ∧
    (compositeVerify true [.mk false "auto-fail" "AlwaysFail" [], .mk true "auto-pass" "AlwaysPass" []]).details =
      [.mk false "auto-fail" "AlwaysFail" []] ∧
    (compositeVerify false [.mk false "auto-fail" "AlwaysFail" [], .mk true "auto-pass" "AlwaysPass" []]).details =
      [.mk false "auto-fail" "AlwaysFail" [], .mk true "auto-pass" "AlwaysPass" []] :=
  composite_failfast_vs_collectall
    [.mk false "auto-fail" "AlwaysFail" [], .mk true "auto-pass" "AlwaysPass" []]
    (List.cons_ne_nil _ _) (.mk false "auto-fail" "AlwaysFail" [])
    (.mk true "auto-pass" "AlwaysPass" []) rfl rfl

/-! ### C6 — strategy version monotonicity (`setStrategy`) -/

theorem versionsFor_setStrategy (s : Store) (r c role : String) :
    versionsFor (setStrategy s r c) role =
      versionsFor s role ++ (if r == role then [maxStrategyVersion s r + 1] else []) := by
  simp only [versionsFor, setStrategy, List.filter_append, List.map_append]
  congr 1
  by_cases h : r == role <;> simp [h]

theorem foldl_max_range' (n : Nat) : ∀ acc : Nat, (List.range' 1 n).foldl max acc = max acc n := by
  induction n with
  | zero => intro acc; simp
  | succ k ih =>
    intro acc
    rw [List.range'_concat, List.foldl_append, ih]
    simp only [List.foldl_cons, List.foldl_nil]
    omega

theorem maxStrategyVersion_of_range (s : Store) (role : String) (n : Nat)
    (h : versionsFor s role = List.range' 1 n) : maxStrategyVersion s role = n := by
  have hdef : maxStrategyVersion s role = (versionsFor s role).foldl max 0 := rfl
  rw [hdef, h, foldl_max_range']
  omega

theorem applySetStrategies_versions (ops : List (String × String)) :
    ∀ s : Store, (∀ r : String, versionsFor s r = List.range' 1 (versionsFor s r).length) →
      ∀ r : String, versionsFor (applySetStrategies s ops) r =
        List.range' 1 ((versionsFor s r).length + ops.countP (fun op => op.1 == r)) := by
  induction ops with
  | nil => intro s h r; simpa using h r
  | cons op rest ih =>
    intro s h r
    have h' : ∀ r2 : String, versionsFor (setStrategy s op.1 op.2) r2 =
        List.range' 1 (versionsFor (setStrategy s op.1 op.2) r2).length := by
      intro r2
      rw [versionsFor_setStrategy]
      by_cases hro : (op.1 == r2) = true
      · have heq : op.1 = r2 := by simpa using hro
        have hmax : maxStrategyVersion s op.1 = (versionsFor s r2).length := by
          rw [heq]
          exact maxStrategyVersion_of_range s r2 _ (h r2)
        rw [if_pos hro, hmax]
        conv_lhs => rw [h r2]
        simp [List.range'_concat, List.length_range', Nat.add_comm]
      · rw [if_neg hro]
        simpa using h r2
    have hres := ih (setStrategy s op.1 op.2) h' r
    have hlen2 : (versionsFor (setStrategy s op.1 op.2) r).length =
        (versionsFor s r).length + (if op.1 == r then 1 else 0) := by
      rw [versionsFor_setStrategy, List.length_append]
      by_cases hro : (op.1 == r) = true <;> simp [hro]
    have hcount : (op :: rest).countP (fun q => q.1 == r) =
        rest.countP (fun q => q.1 == r) + (if op.1 == r then 1 else 0) := by
      rw [List.countP_cons]
    show versionsFor (applySetStrategies (setStrategy s op.1 op.2) rest) r = _
    rw [hres, hlen2, hcount]
    congr 1
    omega

/-- Claim C6: starting from a fresh store, any interleaved sequence of
`setStrategy` calls yields, for every role, version numbers that are exactly
`1 .. N` in insertion order (gapless, strictly increasing), where `N` is the
number of calls for that role — independent of the calls for other roles. -/
theorem strategy_versions_gapless (ops : List (String × String)) (role : String) :
    versionsFor (applySetStrategies Store.empty ops) role =
      List.range' 1 (ops.countP (fun op => op.1 == role)) := by
  have h0 : ∀ r : String, versionsFor Store.empty r =
      List.range' 1 (versionsFor Store.empty r).length := fun r => rfl
  have h := applySetStrategies_versions ops Store.empty h0 role
  have hz : (versionsFor Store.empty role).length = 0 := rfl
  rw [hz, Nat.zero_add] at h
  exact h

/-! ### C3 — `continueOnError` graph runs complete without throwing -/

theorem runGraphNode_continue_ok (invoke : GraphNode → List (String × String) → Except String String)
    (g : AgentGraph) (m : WorkingMemory) (nodeId : String) :
    ∃ m', runGraphNode invoke true g m nodeId = .ok m' := by
  unfold runGraphNode
  cases g.nodes.find? (fun n => n.id == nodeId) with
  | none => exact ⟨m, rfl⟩
  | some node =>
    dsimp only
    by_cases hrole : (node.role == "verifier") = true
    · rw [if_pos hrole]
      exact ⟨m, rfl⟩
    · rw [if_neg hrole]
      cases invoke node ((predecessors g nodeId).map (fun p => (p, m.getSlot p))) with
      | ok out => exact ⟨m.setSlot nodeId out, rfl⟩
      | error msg =>
        exact ⟨{ m.setSlot nodeId "" with
          nodeErrors := (m.setSlot nodeId "").nodeErrors ++ [(nodeId, msg)] }, rfl⟩

theorem runGraphNodes_continue_ok (invoke : GraphNode → List (String × String) → Except String String)
    (g : AgentGraph) : ∀ (order : List String) (m : WorkingMemory),
    ∃ m', runGraphNodes invoke true g order m = .ok m' := by
  intro order
  induction order with
  | nil => exact fun m => ⟨m, rfl⟩
  | cons nodeId rest ih =>
    intro m
    obtain ⟨m1, hm1⟩ := runGraphNode_continue_ok invoke g m nodeId
    obtain ⟨m2, hm2⟩ := ih m1
    refine ⟨m2, ?_⟩
    rw [runGraphNodes, hm1]
    exact hm2

/-- Claim C3: with `continueOnError` set, a graph run completes without
throwing for every graph and every (possibly failing) role invocation; and on
the three-node pipeline whose every gateway call fails, the run returns a
memory with empty `finalCandidate` and one `meta.nodeErrors` entry per node
(the verifier's failure is applied as a value, not an exception). -/
theorem continue_on_error_completes
    (invoke : GraphNode → List (String × String) → Except String String)
    (verifier : WorkingMemory → Bool × String) (g : AgentGraph) (task : String) :
    (∃ m, graphRunnerRun invoke verifier g task true = .ok m) ∧
    (graphRunnerRun failInvoke failVerifier pipelineGraph "test task" true).map
        (fun m => (m.finalCandidate, m.nodeErrors.map Prod.fst, m.verificationPassed)) =
      .ok ("", ["generator", "critic", "judge"], false) := by
  constructor
  · obtain ⟨m1, hm1⟩ :=
      runGraphNodes_continue_ok invoke g (topologicalOrder g) (WorkingMemory.init.setTask task)
    unfold graphRunnerRun
    dsimp only
    rw [hm1]
    exact ⟨_, rfl⟩
  · rfl

/-! ### C9 — governance molt denial is all-or-nothing -/

/-- Claim C9: whenever `canMolt` denies, `triggerMolt` returns
`success = false` carrying the denial reason and the store is completely
untouched (no checkpoint, no governance update, no audit row); and two
back-to-back `triggerMolt` calls against a fresh store within the rate-limit
window make the second return `success = false` (`parseNum`/`toString` model
the JS float stringify/parse round-trip for the stored `last_molt_at`). -/
theorem molt_denial_all_or_nothing
    (parseNum : String → Option Int) (s : Store) (v : String) (cfg : GovernanceConfig)
    (gh mh : String) (refs : List String) (now t1 t2 : Int)
    (hdeny : (canMolt parseNum s cfg now).1 = false)
    (hparse : parseNum (toString t1) = some t1)
    (htos : toString t1 ≠ "")
    (hrate : t2 - t1 < cfg.moltRateLimitSec) :
    triggerMolt parseNum s v cfg gh mh refs now =
      ((false, (canMolt parseNum s cfg now).2), s) ∧
    ((triggerMolt parseNum
        (triggerMolt parseNum Store.empty v cfg gh mh refs t1).2 v cfg gh mh refs t2).1).1
      = false := by
  constructor
  · unfold triggerMolt
    dsimp only
    rw [hdeny]
    rfl
  · have hB : canMolt parseNum Store.empty cfg t1 = (true, "") := by
      unfold canMolt
      simp [getGovernanceValue, Store.empty]
    have hgov : (triggerMolt parseNum Store.empty v cfg gh mh refs t1).2.governance =
        [("entity_version", v), ("last_molt_at", toString t1)] := by
      unfold triggerMolt
      rw [hB]
      rfl
    obtain ⟨S1, hS1⟩ : ∃ S1, (triggerMolt parseNum Store.empty v cfg gh mh refs t1).2 = S1 :=
      ⟨_, rfl⟩
    rw [hS1] at hgov ⊢
    have hpaused : getGovernanceValue S1 "paused" = none := by
      unfold getGovernanceValue
      rw [hgov]
      rfl
    have hlast : getGovernanceValue S1 "last_molt_at" = some (toString t1) := by
      unfold getGovernanceValue
      rw [hgov]
      rfl
    have hC : (canMolt parseNum S1 cfg t2).1 = false := by
      unfold canMolt
      rw [hpaused, hlast]
      simp [htos, hparse, hrate]
    unfold triggerMolt
    dsimp only
    rw [hC]
    rfl

/-- Claim C9 witness: a store paused under an active human veto for the
denial part, and two immediate calls (`t = 5` then `t = 6`) against a fresh
store with `moltRateLimitSec = 9999` for the rate-limit part. -/
theorem molt_denial_all_or_nothing_witness :
    triggerMolt (fun _ => some 5) ⟨[("paused", "1")], [], [], []⟩ "v1" ⟨9999, [], true⟩ "" "" [] 100 =
      ((false, (canMolt (fun _ => some 5) ⟨[("paused", "1")], [], [], []⟩ ⟨9999, [], true⟩ 100).2),
        ⟨[("paused", "1")], [], [], []⟩) ∧
    ((triggerMolt (fun _ => some 5)
        (triggerMolt (fun _ => some 5) Store.empty "v1" ⟨9999, [], true⟩ "" "" [] 5).2
        "v1" ⟨9999, [], true⟩ "" "" [] 6).1).1 = false :=
  molt_denial_all_or_nothing (fun _ => some 5) ⟨[("paused", "1")], [], [], []⟩ "v1"
    ⟨9999, [], true⟩ "" "" [] 100 5 6 rfl rfl (by decide) (by decide)

/-! ### C4 — policy verifier two-pass semantics -/

theorem mem_allowedCategories (rules : List CompiledRule) (artifact task cat : String) :
    cat ∈ allowedCategories rules artifact task ↔
      ∃ c ∈ rules, c.rule.enabled = true ∧ c.rule.action = RuleAction.allow ∧
        c.rule.category = cat ∧ c.test (getTargetText c.rule.target artifact task) = true := by
  simp only [allowedCategories, List.mem_map, List.mem_filter, Bool.and_eq_true, beq_iff_eq]
  constructor
  · rintro ⟨c, ⟨hc, ⟨he, ha⟩, ht⟩, hcat⟩
    exact ⟨c, hc, he, ha, hcat, ht⟩
  · rintro ⟨c, hc, he, ha, hcat, ht⟩
    exact ⟨c, ⟨hc, ⟨he, ha⟩, ht⟩, hcat⟩

theorem policyVerify_passed_iff (rules : List CompiledRule) (artifact task : String) :
    (policyVerify rules artifact task).passed = true ↔
      policyViolations rules artifact task = [] := by
  unfold policyVerify
  by_cases h : policyViolations rules artifact task = []
  · simp [h, VerificationResult.passed]
  · have hlen : 0 < (policyViolations rules artifact task).length :=
      List.length_pos.mpr h
    simp [h, hlen, VerificationResult.passed, Nat.not_eq_zero_of_lt hlen]

theorem policyViolations_eq_nil_iff (rules : List CompiledRule) (artifact task : String) :
    policyViolations rules artifact task = [] ↔
      ∀ c ∈ rules, c.rule.enabled = true → c.rule.action = RuleAction.deny →
        c.rule.category ∉ allowedCategories rules artifact task →
        c.test (getTargetText c.rule.target artifact task) = false := by
  unfold policyViolations
  dsimp only
  rw [List.map_eq_nil_iff, List.filter_eq_nil_iff]
  constructor
  · intro h c hc he ha hna
    have hcont : (allowedCategories rules artifact task).contains c.rule.category = false := by
      cases hx : (allowedCategories rules artifact task).contains c.rule.category
      · rfl
      · exact absurd (List.elem_iff.mp hx) hna
    cases hx : c.test (getTargetText c.rule.target artifact task)
    · rfl
    · exfalso
      apply h c hc
      simp [he, ha, hcont, hx, hna]
  · intro h c hc hpred
    simp only [Bool.and_eq_true, Bool.not_eq_true', beq_iff_eq] at hpred
    obtain ⟨⟨⟨he, ha⟩, hcont⟩, ht⟩ := hpred
    have hna : c.rule.category ∉ allowedCategories rules artifact task := by
      intro hmem
      have hc2 : (allowedCategories rules artifact task).contains c.rule.category = true :=
        List.elem_iff.mpr hmem
      rw [hc2] at hcont
      exact Bool.noConfusion hcont
    have hfalse := h c hc he ha hna
    rw [hfalse] at ht
    exact Bool.noConfusion ht

theorem allowedCategories_filter_enabled (rules : List CompiledRule) (artifact task : String) :
    allowedCategories (rules.filter (fun c => c.rule.enabled)) artifact task =
      allowedCategories rules artifact task := by
  unfold allowedCategories
  rw [List.filter_filter]
  congr 1
  apply List.filter_congr
  intro c _
  cases hc : c.rule.enabled <;> simp [hc]

theorem policyViolations_filter_enabled (rules : List CompiledRule) (artifact task : String) :
    policyViolations (rules.filter (fun c => c.rule.enabled)) artifact task =
      policyViolations rules artifact task := by
  unfold policyViolations
  dsimp only
  rw [allowedCategories_filter_enabled, List.filter_filter]
  congr 1
  apply List.filter_congr
  intro c _
  cases hc : c.rule.enabled <;> simp [hc]

/-- Claim C4, counterexample: on a single always-matching enabled deny rule
the verifier fails as expected, but the failure evidence is not the bare
newline-joined violation list — the code prepends a `"Policy violations:"`
header line to it. -/
theorem policy_evidence_has_header :
    (policyVerify [denyAllRule] "rm -rf /" "").passed = false ∧
    policyViolations [denyAllRule] "rm -rf /" "" = ["[r1] desc"] ∧
    (policyVerify [denyAllRule] "rm -rf /" "").evidence =
      "Policy violations:\n" ++ String.intercalate "\n" ["[r1] desc"] ∧
    (policyVerify [denyAllRule] "rm -rf /" "").evidence ≠
      String.intercalate "\n" ["[r1] desc"] := by
  refine ⟨rfl, rfl, rfl, ?_⟩
  decide

/-- Claim C4 (amended): `PolicyVerifier.verify` passes iff no enabled deny
rule — whose category was not matched by any enabled allow rule against that
allow rule's own target text — matches its target text; the allow-listed
categories are exactly those of matching enabled allow rules; disabled rules
are skipped in both passes; a deny and an allow rule of the same category
both matching yields a pass; on failure the evidence is the
`"Policy violations:"` header followed by the newline-joined
`[ruleId] description` lines (not the bare join), and on success the fixed
all-rules-passed string. -/
theorem policy_verify_two_pass
    (rules : List CompiledRule) (artifact task : String) (d a : CompiledRule)
    (hd : d.rule.action = RuleAction.deny) (ha : a.rule.action = RuleAction.allow)
    (hcat : a.rule.category = d.rule.category)
    (hde : d.rule.enabled = true) (hae : a.rule.enabled = true)
    (hmatch : a.test (getTargetText a.rule.target artifact task) = true) :
    ((policyVerify rules artifact task).passed = true ↔
      ∀ c ∈ rules, c.rule.enabled = true → c.rule.action = RuleAction.deny →
        c.rule.category ∉ allowedCategories rules artifact task →
        c.test (getTargetText c.rule.target artifact task) = false) ∧
    (∀ cat, cat ∈ allowedCategories rules artifact task ↔
      ∃ c ∈ rules, c.rule.enabled = true ∧ c.rule.action = RuleAction.allow ∧
        c.rule.category = cat ∧ c.test (getTargetText c.rule.target artifact task) = true) ∧
    policyVerify (rules.filter (fun c => c.rule.enabled)) artifact task =
      policyVerify rules artifact task ∧
    (policyVerify [d, a] artifact task).passed = true ∧
    ((policyVerify rules artifact task).passed = false →
      (policyVerify rules artifact task).evidence =
        "Policy violations:\n" ++
          String.intercalate "\n" (policyViolations rules artifact task)) ∧
    ((policyVerify rules artifact task).passed = true →
      (policyVerify rules artifact task).evidence = "All policy rules passed.") := by
  refine ⟨(policyVerify_passed_iff rules artifact task).trans
    (policyViolations_eq_nil_iff rules artifact task),
    fun cat => mem_allowedCategories rules artifact task cat, ?_, ?_, ?_, ?_⟩
  · unfold policyVerify
    rw [policyViolations_filter_enabled]
  · rw [policyVerify_passed_iff, policyViolations_eq_nil_iff]
    intro c hc he hdeny hna
    have hmem : c = d ∨ c = a := by simpa using hc
    rcases hmem with hcd | hca
    · exfalso
      apply hna
      rw [hcd]
      exact (mem_allowedCategories [d, a] artifact task d.rule.category).mpr
        ⟨a, by simp, hae, ha, hcat, hmatch⟩
    · exfalso
      rw [hca, ha] at hdeny
      exact RuleAction.noConfusion hdeny
  · intro hfail
    have hvne : policyViolations rules artifact task ≠ [] := by
      intro h0
      have := (policyVerify_passed_iff rules artifact task).mpr h0
      rw [this] at hfail
      exact Bool.noConfusion hfail
    have hlen : 0 < (policyViolations rules artifact task).length :=
      List.length_pos.mpr hvne
    unfold policyVerify
    dsimp only
    rw [if_pos hlen]
    rfl
  · intro hpass
    have h0 := (policyVerify_passed_iff rules artifact task).mp hpass
    unfold policyVerify
    dsimp only
    rw [h0]
    rfl

/-- Claim C4 witness: the concrete always-matching deny/allow pair of the
same category — the deny rule is overridden and verification passes. -/
theorem policy_verify_two_pass_witness :
    (policyVerify [denyAllRule, allowAllRule] "rm -rf /" "").passed = true :=
  (policy_verify_two_pass [denyAllRule, allowAllRule] "rm -rf /" "" denyAllRule allowAllRule
    rfl rfl rfl rfl rfl rfl).2.2.2.1

/-! ### C8 — topological order respects edges -/

theorem mem_setDedupGo (l : List String) : ∀ (seen : List String) (x : String),
    x ∈ setDedupGo seen l ↔ (x ∈ l ∧ x ∉ seen) := by
  induction l with
  | nil => intro seen x; simp [setDedupGo]
  | cons y ys ih =>
    intro seen x
    by_cases hy : seen.contains y = true
    · have hymem : y ∈ seen := List.elem_iff.mp hy
      rw [setDedupGo, if_pos hy, ih]
      constructor
      · rintro ⟨hx, hns⟩
        exact ⟨List.mem_cons_of_mem y hx, hns⟩
      · rintro ⟨hx, hns⟩
        rcases List.mem_cons.mp hx with rfl | hx
        · exact absurd hymem hns
        · exact ⟨hx, hns⟩
    · rw [setDedupGo, if_neg hy]
      have hynmem : y ∉ seen := fun hm => hy (List.elem_iff.mpr hm)
      constructor
      · intro hx
        rcases List.mem_cons.mp hx with rfl | hx
        · exact ⟨List.mem_cons_self x ys, hynmem⟩
        · obtain ⟨h1, h2⟩ := (ih (y :: seen) x).mp hx
          have : x ∉ seen := fun hs => h2 (List.mem_cons_of_mem y hs)
          exact ⟨List.mem_cons_of_mem y h1, this⟩
      · rintro ⟨hx, hns⟩
        rcases List.mem_cons.mp hx with rfl | hx
        · exact List.mem_cons_self x _
        · by_cases hxy : x = y
          · subst hxy
            exact List.mem_cons_self x _
          · exact List.mem_cons_of_mem y ((ih (y :: seen) x).mpr
              ⟨hx, fun hm => (List.mem_cons.mp hm).elim hxy hns⟩)

theorem nodup_setDedupGo (l : List String) : ∀ seen : List String,
    (setDedupGo seen l).Nodup := by
  induction l with
  | nil => intro seen; simp [setDedupGo]
  | cons y ys ih =>
    intro seen
    by_cases hy : seen.contains y = true
    · rw [setDedupGo, if_pos hy]
      exact ih seen
    · rw [setDedupGo, if_neg hy]
      refine List.nodup_cons.mpr ⟨?_, ih (y :: seen)⟩
      intro hmem
      exact ((mem_setDedupGo ys (y :: seen) y).mp hmem).2 (List.mem_cons_self y seen)

theorem mem_setDedup (l : List String) (x : String) : x ∈ setDedup l ↔ x ∈ l := by
  rw [setDedup, mem_setDedupGo]
  simp

theorem nodup_setDedup (l : List String) : (setDedup l).Nodup :=
  nodup_setDedupGo l []

theorem decSuccessors_apply (nodeIds : List String) : ∀ (ss : List String)
    (d : String → Int) (x : String),
    decSuccessors nodeIds ss d x = d x - (if x ∈ nodeIds then (ss.count x : Int) else 0) := by
  intro ss
  induction ss with
  | nil => intro d x; by_cases hx : x ∈ nodeIds <;> simp [decSuccessors, hx]
  | cons s rest ih =>
    intro d x
    have hstep : decSuccessors nodeIds (s :: rest) d = decSuccessors nodeIds rest
        (if s ∈ nodeIds then (fun y => if y = s then d y - 1 else d y) else d) := rfl
    rw [hstep, ih]
    have hcount : ((s :: rest).count x : Int) = (rest.count x : Int) + (if s = x then 1 else 0) := by
      rw [List.count_cons]
      by_cases hsx : s = x <;> simp [hsx]
    by_cases hs : s ∈ nodeIds
    · rw [if_pos hs]
      by_cases hx : x ∈ nodeIds
      · rw [if_pos hx, if_pos hx, hcount]
        by_cases hxs : x = s
        · rw [if_pos hxs, if_pos (hxs.symm : s = x)]
          omega
        · rw [if_neg hxs, if_neg (fun h => hxs h.symm)]
          omega
      · rw [if_neg hx, if_neg hx]
        have hxs : ¬x = s := fun h => hx (h ▸ hs)
        rw [if_neg hxs]
    · rw [if_neg hs]
      by_cases hx : x ∈ nodeIds
      · rw [if_pos hx, if_pos hx, hcount]
        have hsx : ¬s = x := fun h => hs (h ▸ hx)
        rw [if_neg hsx]
        omega
      · rw [if_neg hx, if_neg hx]

theorem decBatch_apply (g : AgentGraph) (nodeIds : List String) : ∀ (ready : List String)
    (d : String → Int) (x : String),
    decBatch g nodeIds ready d x =
      d x - (if x ∈ nodeIds then
        ((ready.map (fun nid => ((successors g nid).count x : Int))).sum) else 0) := by
  intro ready
  induction ready with
  | nil => intro d x; by_cases hx : x ∈ nodeIds <;> simp [decBatch, hx]
  | cons r rest ih =>
    intro d x
    have hstep : decBatch g nodeIds (r :: rest) d =
        decBatch g nodeIds rest (decSuccessors nodeIds (successors g r) d) := rfl
    rw [hstep, ih, decSuccessors_apply]
    by_cases hx : x ∈ nodeIds
    · rw [if_pos hx, if_pos hx, if_pos hx]
      simp only [List.map_cons, List.sum_cons]
      omega
    · rw [if_neg hx, if_neg hx, if_neg hx]
      omega

theorem count_successors (g : AgentGraph) (nid x : String) :
    (successors g nid).count x =
      (g.edges.filter (fun e => e.eto == x && e.efrom == nid)).length := by
  unfold successors
  rw [List.count_eq_countP, List.countP_map, List.countP_filter,
    ← List.countP_eq_length_filter]
  rfl

theorem length_filter_or_disjoint (p q1 q2 : GraphEdge → Bool) : ∀ l : List GraphEdge,
    (∀ e ∈ l, ¬(q1 e = true ∧ q2 e = true)) →
    (l.filter (fun e => p e && (q1 e || q2 e))).length =
      (l.filter (fun e => p e && q1 e)).length + (l.filter (fun e => p e && q2 e)).length := by
  intro l
  induction l with
  | nil => intro _; simp
  | cons e es ih =>
    intro h
    have hes : ∀ e' ∈ es, ¬(q1 e' = true ∧ q2 e' = true) :=
      fun e' he' => h e' (List.mem_cons_of_mem e he')
    have hne : ¬(q1 e = true ∧ q2 e = true) := h e (List.mem_cons_self e es)
    simp only [List.filter_cons]
    cases hp : p e <;> cases h1 : q1 e <;> cases h2 : q2 e <;>
      simp [hp, h1, h2, ih hes] <;> first | omega | exact absurd ⟨h1, h2⟩ hne

theorem sum_counts_eq_batchEdges (g : AgentGraph) (x : String) : ∀ ready : List String,
    ready.Nodup →
    ((ready.map (fun nid => ((successors g nid).count x : Int))).sum) =
      ((g.edges.filter (fun e => e.eto == x && ready.contains e.efrom)).length : Int) := by
  intro ready
  induction ready with
  | nil => intro _; simp
  | cons r rest ih =>
    intro hnd
    obtain ⟨hr, hrest⟩ := List.nodup_cons.mp hnd
    simp only [List.map_cons, List.sum_cons]
    rw [ih hrest, count_successors]
    have hsplit := length_filter_or_disjoint (fun e => e.eto == x)
      (fun e => e.efrom == r) (fun e => rest.contains e.efrom) g.edges ?_
    · have hcont : ∀ e : GraphEdge,
          ((r :: rest).contains e.efrom) = (e.efrom == r || rest.contains e.efrom) :=
        fun e => List.contains_cons
      have hsame : (g.edges.filter
            (fun e => e.eto == x && (r :: rest).contains e.efrom)).length =
          (g.edges.filter
            (fun e => e.eto == x && (e.efrom == r || rest.contains e.efrom))).length := by
        congr 1
      rw [hsame, hsplit]
      omega
    · intro e _ hq
      obtain ⟨h1, h2⟩ := hq
      have he : e.efrom = r := eq_of_beq h1
      exact hr (he ▸ List.elem_iff.mp h2)

theorem length_filter_sub (order ready : List String)
    (hdis : ∀ x ∈ ready, x ∉ order) (nid : String) : ∀ edges : List GraphEdge,
    ((edges.filter (fun e => e.eto == nid && !((order ++ ready).contains e.efrom))).length : Int) =
      ((edges.filter (fun e => e.eto == nid && !(order.contains e.efrom))).length : Int) -
      ((edges.filter (fun e => e.eto == nid && ready.contains e.efrom)).length : Int) := by
  intro edges
  induction edges with
  | nil => simp
  | cons e es ih =>
    have happ : ((order ++ ready).contains e.efrom) =
        (order.contains e.efrom || ready.contains e.efrom) := by
      cases ho : order.contains e.efrom
      · cases hr : ready.contains e.efrom
        · simp only [Bool.or_self]
          cases hor : (order ++ ready).contains e.efrom
          · rfl
          · exfalso
            rcases List.mem_append.mp (List.elem_iff.mp hor) with hm | hm
            · have hco : order.contains e.efrom = true := List.elem_iff.mpr hm
              rw [hco] at ho
              exact Bool.noConfusion ho
            · have hcr : ready.contains e.efrom = true := List.elem_iff.mpr hm
              rw [hcr] at hr
              exact Bool.noConfusion hr
        · simp only [Bool.or_true]
          exact List.elem_iff.mpr (List.mem_append.mpr (Or.inr (List.elem_iff.mp hr)))
      · simp only [Bool.true_or]
        exact List.elem_iff.mpr (List.mem_append.mpr (Or.inl (List.elem_iff.mp ho)))
    simp only [List.filter_cons]
    cases h1 : (e.eto == nid) <;> cases ho : order.contains e.efrom <;>
        cases hr : ready.contains e.efrom <;>
      simp only [happ, h1, ho, hr, Bool.false_and, Bool.true_and, Bool.and_false,
        Bool.and_true, Bool.false_or, Bool.true_or, Bool.or_false, Bool.or_true,
        Bool.not_true, Bool.not_false, if_true, if_false, List.length_cons] <;>
      first
        | (push_cast; omega)
        | (exfalso
           exact hdis e.efrom (List.elem_iff.mp hr) (List.elem_iff.mp ho))

theorem pendingCount_append (g : AgentGraph) (order ready : List String)
    (hdis : ∀ x ∈ ready, x ∉ order) (nid : String) :
    pendingCount g (order ++ ready) nid =
      pendingCount g order nid -
        ((g.edges.filter (fun e => e.eto == nid && ready.contains e.efrom)).length : Int) := by
  unfold pendingCount
  rw [length_filter_sub order ready hdis nid g.edges]

theorem indexOf_append_right (l₂ : List String) (a : String) : ∀ l₁ : List String, a ∉ l₁ →
    (l₁ ++ l₂).indexOf a = l₁.length + l₂.indexOf a := by
  intro l₁
  induction l₁ with
  | nil => intro _; simp
  | cons b bs ih =>
    intro h
    have hab : a ≠ b := fun he => h (he ▸ List.mem_cons_self b bs)
    have hbs : a ∉ bs := fun hm => h (List.mem_cons_of_mem b hm)
    rw [List.cons_append, List.indexOf_cons_ne _ (Ne.symm hab), ih hbs]
    simp [Nat.succ_eq_add_one]
    omega

theorem mem_of_length_le (nodeIds order : List String) (hnodup : nodeIds.Nodup)
    (hnd : order.Nodup) (hsub : ∀ x ∈ order, x ∈ nodeIds)
    (hlen : nodeIds.length ≤ order.length) : ∀ nid ∈ nodeIds, nid ∈ order := by
  have h1 : order.toFinset ⊆ nodeIds.toFinset := fun x hx =>
    List.mem_toFinset.mpr (hsub x (List.mem_toFinset.mp hx))
  have hcard : nodeIds.toFinset.card ≤ order.toFinset.card := by
    rw [List.toFinset_card_of_nodup hnd, List.toFinset_card_of_nodup hnodup]
    exact hlen
  have heq := Finset.eq_of_subset_of_card_le h1 hcard
  intro nid hnid
  exact List.mem_toFinset.mp (heq ▸ List.mem_toFinset.mpr hnid)

theorem length_le_of_nodup_subset (nodeIds order : List String) (hnodup : nodeIds.Nodup)
    (hsub : ∀ x ∈ nodeIds, x ∈ order) : nodeIds.length ≤ order.length := by
  calc nodeIds.length = nodeIds.toFinset.card := (List.toFinset_card_of_nodup hnodup).symm
    _ ≤ order.toFinset.card := Finset.card_le_card (fun x hx =>
        List.mem_toFinset.mpr (hsub x (List.mem_toFinset.mp hx)))
    _ ≤ order.length := List.toFinset_card_le order

/-- In a finite set where every element has an incoming `R`-edge from inside
the set, `R` has a cycle (iterate a chosen predecessor map and apply the
pigeonhole principle). -/
theorem exists_transGen_cycle (R : String → String → Prop) (S : Finset String)
    (hne : S.Nonempty) (hpred : ∀ x ∈ S, ∃ y ∈ S, R y x) :
    ∃ a, Relation.TransGen R a a := by
  classical
  obtain ⟨x0, hx0⟩ := hne
  let f : String → String := fun x => if hx : x ∈ S then (hpred x hx).choose else x
  have hfS : ∀ x ∈ S, f x ∈ S := by
    intro x hx
    show (if hx' : x ∈ S then (hpred x hx').choose else x) ∈ S
    rw [dif_pos hx]
    exact (hpred x hx).choose_spec.1
  have hfR : ∀ x ∈ S, R (f x) x := by
    intro x hx
    show R (if hx' : x ∈ S then (hpred x hx').choose else x) x
    rw [dif_pos hx]
    exact (hpred x hx).choose_spec.2
  have hiter : ∀ n : Nat, f^[n] x0 ∈ S := by
    intro n
    induction n with
    | zero => exact hx0
    | succ k ih =>
      rw [Function.iterate_succ_apply']
      exact hfS _ ih
  have hcard : S.card < (Finset.range (S.card + 1)).card := by
    rw [Finset.card_range]
    omega
  obtain ⟨i, _, j, _, hne', heq⟩ :=
    Finset.exists_ne_map_eq_of_card_lt_of_maps_to hcard
      (fun n _ => hiter n)
  have hchain : ∀ a b : Nat, a < b → Relation.TransGen R (f^[b] x0) (f^[a] x0) := by
    intro a b hab
    induction b with
    | zero => omega
    | succ k ih =>
      have hstep : R (f^[k + 1] x0) (f^[k] x0) := by
        rw [Function.iterate_succ_apply']
        exact hfR _ (hiter k)
      rcases Nat.lt_or_ge a k with hak | hak
      · exact (ih hak).head hstep
      · have : a = k := by omega
        subst this
        exact Relation.TransGen.single hstep
  rcases Nat.lt_or_ge i j with hij | hij
  · exact ⟨f^[i] x0, heq ▸ hchain i j hij⟩
  · have hji : j < i := by omega
    exact ⟨f^[j] x0, heq ▸ hchain j i hji⟩

/-- Invariant lemma for the `topologicalOrder` sweep: starting from a state
whose in-degree map counts exactly the not-yet-emitted edge sources and whose
emitted prefix respects the edges, the sweep emits a duplicate-free,
edge-respecting order, and — on an acyclic graph with valid edge sources —
emits every node. -/
theorem topoLoop_master (g : AgentGraph) (nodeIds : List String) (hnodup : nodeIds.Nodup)
    (hvalid : ∀ e ∈ g.edges, e.efrom ∈ nodeIds)
    (hacyc : Acyclic g) :
    ∀ (fuel : Nat) (inDeg : String → Int) (order : List String),
      (∀ x ∈ order, x ∈ nodeIds) → order.Nodup →
      (∀ nid ∈ nodeIds, inDeg nid = pendingCount g order nid) →
      OrderOK g nodeIds order →
      nodeIds.length ≤ fuel + order.length →
      (∀ x ∈ topoLoop g nodeIds fuel inDeg order, x ∈ nodeIds) ∧
      (topoLoop g nodeIds fuel inDeg order).Nodup ∧
      OrderOK g nodeIds (topoLoop g nodeIds fuel inDeg order) ∧
      ∀ nid ∈ nodeIds, nid ∈ topoLoop g nodeIds fuel inDeg order := by
  intro fuel
  induction fuel with
  | zero =>
    intro inDeg order hsub hnd hdeg hord hfuel
    simp only [topoLoop]
    exact ⟨hsub, hnd, hord,
      mem_of_length_le nodeIds order hnodup hnd hsub (by omega)⟩
  | succ fuel ih =>
    intro inDeg order hsub hnd hdeg hord hfuel
    simp only [topoLoop]
    by_cases hlt : order.length < nodeIds.length
    · rw [if_pos hlt]
      by_cases hre : (nodeIds.filter
          (fun nid => !(order.contains nid) && inDeg nid == 0)).isEmpty
      · rw [if_pos hre]
        exfalso
        have hmiss : ¬ (∀ nid ∈ nodeIds, nid ∈ order) := by
          intro hall
          exact absurd (length_le_of_nodup_subset nodeIds order hnodup hall) (by omega)
        have hSne : (nodeIds.toFinset \ order.toFinset).Nonempty := by
          rw [Finset.sdiff_nonempty]
          intro hsub'
          apply hmiss
          intro nid hnid
          exact List.mem_toFinset.mp (hsub' (List.mem_toFinset.mpr hnid))
        have hready_nil : nodeIds.filter
            (fun nid => !(order.contains nid) && inDeg nid == 0) = [] :=
          List.isEmpty_iff.mp hre
        have hstuck : ∀ x, x ∈ nodeIds → x ∉ order → inDeg x ≠ 0 := by
          intro x hxN hxO hx0
          have hxr : x ∈ nodeIds.filter
              (fun nid => !(order.contains nid) && inDeg nid == 0) := by
            refine List.mem_filter.mpr ⟨hxN, ?_⟩
            have h1 : order.contains x = false := by
              cases hc : order.contains x
              · rfl
              · exact absurd (List.elem_iff.mp hc) hxO
            simp [h1, hx0, hxO]
          rw [hready_nil] at hxr
          exact absurd hxr (List.not_mem_nil x)
        have hpred : ∀ x ∈ nodeIds.toFinset \ order.toFinset,
            ∃ y ∈ nodeIds.toFinset \ order.toFinset, edgeRel g y x := by
          intro x hxS
          obtain ⟨hxN', hxO'⟩ := Finset.mem_sdiff.mp hxS
          have hxN := List.mem_toFinset.mp hxN'
          have hxO : x ∉ order := fun hm => hxO' (List.mem_toFinset.mpr hm)
          have hne0 : inDeg x ≠ 0 := hstuck x hxN hxO
          rw [hdeg x hxN] at hne0
          have hfne : (g.edges.filter
              (fun e => e.eto == x && !(order.contains e.efrom))) ≠ [] := by
            intro h0
            apply hne0
            unfold pendingCount
            rw [h0]
            rfl
          obtain ⟨e, he⟩ := List.exists_mem_of_ne_nil _ hfne
          obtain ⟨heE, hp⟩ := List.mem_filter.mp he
          rw [Bool.and_eq_true] at hp
          obtain ⟨hp1, hp2⟩ := hp
          have heto : e.eto = x := eq_of_beq hp1
          have hefrom_not : e.efrom ∉ order := by
            intro hmo
            have hc : order.contains e.efrom = true := List.elem_iff.mpr hmo
            rw [hc] at hp2
            exact Bool.noConfusion hp2
          have hefromN : e.efrom ∈ nodeIds := hvalid e heE
          refine ⟨e.efrom, ?_, ⟨e, heE, rfl, heto⟩⟩
          exact Finset.mem_sdiff.mpr ⟨List.mem_toFinset.mpr hefromN,
            fun hm => hefrom_not (List.mem_toFinset.mp hm)⟩
        obtain ⟨a, ha⟩ := exists_transGen_cycle (edgeRel g) _ hSne hpred
        exact hacyc a ha
      · rw [if_neg hre]
        have hready_sub : ∀ x ∈ nodeIds.filter
            (fun nid => !(order.contains nid) && inDeg nid == 0), x ∈ nodeIds :=
          fun x hx => (List.mem_filter.mp hx).1
        have hready_nd : (nodeIds.filter
            (fun nid => !(order.contains nid) && inDeg nid == 0)).Nodup :=
          hnodup.filter _
        have hready_props : ∀ x ∈ nodeIds.filter
            (fun nid => !(order.contains nid) && inDeg nid == 0),
            x ∉ order ∧ inDeg x = 0 := by
          intro x hx
          have hp := (List.mem_filter.mp hx).2
          rw [Bool.and_eq_true] at hp
          obtain ⟨h1, h2⟩ := hp
          constructor
          · intro hmo
            have hc : order.contains x = true := List.elem_iff.mpr hmo
            rw [hc] at h1
            exact Bool.noConfusion h1
          · exact eq_of_beq h2
        have hdis : ∀ x ∈ nodeIds.filter
            (fun nid => !(order.contains nid) && inDeg nid == 0), x ∉ order :=
          fun x hx => (hready_props x hx).1
        apply ih
        · intro x hx
          rcases List.mem_append.mp hx with hx | hx
          · exact hsub x hx
          · exact hready_sub x hx
        · exact hnd.append hready_nd (fun a ha1 ha2 => hdis a ha2 ha1)
        · intro nid hnid
          rw [decBatch_apply, if_pos hnid,
            sum_counts_eq_batchEdges g nid _ hready_nd,
            pendingCount_append g order _ hdis nid, hdeg nid hnid]
        · intro e heE hfrom hto
          rcases List.mem_append.mp hto with hto1 | hto2
          · obtain ⟨hf1, hlt1⟩ := hord e heE hfrom hto1
            refine ⟨List.mem_append.mpr (Or.inl hf1), ?_⟩
            rw [List.indexOf_append_of_mem hf1, List.indexOf_append_of_mem hto1]
            exact hlt1
          · have h0 : inDeg e.eto = 0 := (hready_props e.eto hto2).2
            have hpend : pendingCount g order e.eto = 0 := by
              rw [← hdeg e.eto (hready_sub _ hto2)]
              exact h0
            have hfilter : (g.edges.filter
                (fun e' => e'.eto == e.eto && !(order.contains e'.efrom))) = [] := by
              unfold pendingCount at hpend
              have hl : (g.edges.filter
                  (fun e' => e'.eto == e.eto && !(order.contains e'.efrom))).length = 0 := by
                exact_mod_cast hpend
              exact List.length_eq_zero.mp hl
            have hnotp : ¬(e.eto == e.eto && !(order.contains e.efrom)) = true := by
              intro hcontra
              have hmem : e ∈ g.edges.filter
                  (fun e' => e'.eto == e.eto && !(order.contains e'.efrom)) :=
                List.mem_filter.mpr ⟨heE, hcontra⟩
              rw [hfilter] at hmem
              exact absurd hmem (List.not_mem_nil e)
            have hfromO : e.efrom ∈ order := by
              by_contra hno
              apply hnotp
              have h1 : order.contains e.efrom = false := by
                cases hc : order.contains e.efrom
                · rfl
                · exact absurd (List.elem_iff.mp hc) hno
              simp [h1, hno]
            refine ⟨List.mem_append.mpr (Or.inl hfromO), ?_⟩
            rw [List.indexOf_append_of_mem hfromO,
              indexOf_append_right _ e.eto order (hready_props e.eto hto2).1]
            have hi1 : order.indexOf e.efrom < order.length :=
              List.indexOf_lt_length.mpr hfromO
            omega
        · have hrne : nodeIds.filter
              (fun nid => !(order.contains nid) && inDeg nid == 0) ≠ [] := by
            intro h
            rw [h] at hre
            exact hre rfl
          have hrlen : 0 < (nodeIds.filter
              (fun nid => !(order.contains nid) && inDeg nid == 0)).length :=
            List.length_pos.mpr hrne
          rw [List.length_append]
          omega
    · rw [if_neg hlt]
      exact ⟨hsub, hnd, hord,
        mem_of_length_le nodeIds order hnodup hnd hsub (by omega)⟩

/-- A rank function increasing along every edge certifies acyclicity. -/
theorem acyclic_of_rank (g : AgentGraph) (rank : String → Nat)
    (h : ∀ e ∈ g.edges, rank e.efrom < rank e.eto) : Acyclic g := by
  have step : ∀ a b, Relation.TransGen (edgeRel g) a b → rank a < rank b := by
    intro a b hab
    induction hab with
    | single hr =>
      obtain ⟨e, he, h1, h2⟩ := hr
      rw [← h1, ← h2]
      exact h e he
    | tail _ hr ih =>
      obtain ⟨e, he, h1, h2⟩ := hr
      have := h e he
      rw [h1, h2] at this
      omega
  intro a ha
  exact absurd (step a a ha) (lt_irrefl _)

/-- Claim C8: on an `AgentGraph` satisfying the data-model invariants (edges
reference existing node ids) whose edge relation is acyclic, the list
returned by `topologicalOrder` contains every node, and for every edge
`a → b` the source appears strictly before the target:
`order.indexOf(a) < order.indexOf(b)`. -/
theorem topological_order_respects_edges (g : AgentGraph)
    (hvalid : ∀ e ∈ g.edges, e.efrom ∈ nodeIdsOf g ∧ e.eto ∈ nodeIdsOf g)
    (hacyc : Acyclic g) :
    ∀ e ∈ g.edges,
      jsIndexOf (topologicalOrder g) e.efrom < jsIndexOf (topologicalOrder g) e.eto := by
  have hnodup : (nodeIdsOf g).Nodup := nodup_setDedup _
  have hdeg0 : ∀ nid ∈ nodeIdsOf g, initInDegree g nid = pendingCount g [] nid := by
    intro nid hnid
    unfold initInDegree pendingCount
    rw [if_pos hnid]
    congr 2
    apply List.filter_congr
    intro e _
    cases h : (e.eto == nid) <;> simp [h]
  have master := topoLoop_master g (nodeIdsOf g) hnodup
    (fun e he => (hvalid e he).1) hacyc (nodeIdsOf g).length (initInDegree g) []
    (by intro x hx; exact absurd hx (List.not_mem_nil x))
    List.nodup_nil hdeg0
    (by intro e _ _ ht; exact absurd ht (List.not_mem_nil e.eto))
    (by simp)
  obtain ⟨_, _, hordR, hcompR⟩ := master
  intro e he
  have htoO : e.eto ∈ topologicalOrder g := hcompR e.eto (hvalid e he).2
  obtain ⟨hfO, hlt⟩ := hordR e he (hvalid e he).1 htoO
  have hfO' : e.efrom ∈ topologicalOrder g := hfO
  have hlt' : (topologicalOrder g).indexOf e.efrom < (topologicalOrder g).indexOf e.eto := hlt
  unfold jsIndexOf
  rw [if_pos hfO', if_pos htoO]
  exact_mod_cast hlt'

/-- Claim C8 witness: the two-node chain `a → b` (rank-certified acyclic). -/
theorem topological_order_respects_edges_witness :
    jsIndexOf (topologicalOrder chainGraph) ("a" : String) <
      jsIndexOf (topologicalOrder chainGraph) ("b" : String) :=
  topological_order_respects_edges chainGraph (by decide)
    (acyclic_of_rank chainGraph (fun s => if s = "b" then 1 else 0) (by decide))
    ⟨"a", "b"⟩ (by decide)

end Moltblock
